import Mathlib

/-! Shallow embedding of the `ffpack` core library (Rust) in Lean 4.

The embedding covers:
* `src/types/minecraft.rs`: the `Minecraft` version type, its two
  regex grammars, `Minecraft::new`, `Display`, and `Ord`;
* `src/types/files.rs`: `Side`, `Source`, `ManagedFile` and the
  path-only `Ord` for `ManagedFile`;
* `src/lib.rs` / `src/types.rs`: the `Pack` aggregate, whose
  `managed_files` is a `BTreeSet<ManagedFile>`;
* the serde-derived wire format (JSON object model), including the
  `hex::serde` codec of `blake3` digests.

Machine integers (`u16`, `u8`) are modelled as `Nat` with explicit
bounds where overflow matters. Strings are Lean `String`s; the regex
character classes `\d` and `\w` are modelled over ASCII, which covers
every string that the library's numeric parser accepts.
-/

namespace FFPack

/-! Character classes of the two regexes. -/

/-- The regex class `\d` (an ASCII decimal digit `'0'..'9'`). -/
def isDigitC (c : Char) : Bool := 48 ≤ c.toNat && c.toNat ≤ 57

/-- The regex class `\w` (ASCII word character: letter, digit or underscore). -/
def isWordC (c : Char) : Bool :=
  isDigitC c || (65 ≤ c.toNat && c.toNat ≤ 90) || (97 ≤ c.toNat && c.toNat ≤ 122)
    || c.toNat == 95

/-- Numeric value of a digit character. -/
def charVal (c : Char) : Nat := c.toNat - 48

/-- The decimal digit character for `n < 10` (used by the `Display` model). -/
def digitChar (n : Nat) : Char :=
  match n with
  | 0 => '0' | 1 => '1' | 2 => '2' | 3 => '3' | 4 => '4'
  | 5 => '5' | 6 => '6' | 7 => '7' | 8 => '8' | 9 => '9'
  | _ => '*'

/-! Decimal rendering of naturals.

Models Rust's `Display for u16` (standard decimal, no leading zeros).
`toDecimalAux` is fuel-based so that it reduces in the kernel. -/

/-- Big-endian decimal digits of `n` (empty for `0`), with fuel. -/
def toDecimalAux : Nat → Nat → List Char
  | 0, _ => []
  | fuel + 1, n => if n = 0 then [] else toDecimalAux fuel (n / 10) ++ [digitChar (n % 10)]

/-- Decimal rendering of a natural number, as a character list. -/
def natRepr (n : Nat) : List Char := if n = 0 then ['0'] else toDecimalAux n n

/-- Numeric value of a big-endian digit string (models `str::parse` accumulation). -/
def valDigits (ds : List Char) : Nat := ds.foldl (fun a c => 10 * a + charVal c) 0

/-! Parsing of `u16` components (Rust `str::parse::<u16>`). -/

/-- Model of Rust's `std::num::ParseIntError` kinds reachable here. -/
inductive ParseIntError where
  | empty
  | invalidDigit
  | posOverflow
deriving DecidableEq, Repr

/-- Model of `str::parse::<u16>` on a captured substring: empty input and
non-digits are errors, and any value above `u16::MAX = 65535` is a
positive overflow. -/
def parseU16 (ds : List Char) : Except ParseIntError Nat :=
  if ds.isEmpty then .error .empty
  else if ds.all isDigitC then
    if valDigits ds ≤ 65535 then .ok (valDigits ds) else .error .posOverflow
  else .error .invalidDigit

/-! The `Minecraft` version type (`src/types/minecraft.rs`). -/

/-- A decoded Minecraft version (enum `Minecraft`). -/
inductive Minecraft where
  /-- Release version of the game (`x.y.z` or `x.y`). -/
  | Release (major : Nat) (minor : Nat) (patch : Option Nat)
  /-- Snapshot version of the game (`AAwBBx`). -/
  | Snapshot (year : Nat) (week : Nat) (specifier : String)
deriving DecidableEq, Repr

/-- Error type `MinecraftVersionError`. -/
inductive MinecraftVersionError where
  /-- Version provided did not match any supported pattern. -/
  | NoSupportedPattern (version : String)
  /-- Invalid version component, wrapping the integer-parse error. -/
  | InvalidComponent (source : ParseIntError)
deriving DecidableEq, Repr

/-- Capture extraction of the release regex `^(\d+)\.(\d+)(?:\.(\d+))?$`:
returns the three digit groups (`major`, `minor`, optional `patch`) when
the string matches, `none` otherwise. Greedy matching makes each group
the maximal digit run before the separating dot. -/
def releaseCaptures (cs : List Char) : Option (List Char × List Char × Option (List Char)) :=
  let d1 := cs.takeWhile isDigitC
  let r1 := cs.dropWhile isDigitC
  match d1, r1 with
  | [], _ => none
  | _, [] => none
  | _, c1 :: r1t =>
    if c1 = '.' then
      let d2 := r1t.takeWhile isDigitC
      let r2 := r1t.dropWhile isDigitC
      match d2, r2 with
      | [], _ => none
      | _, [] => some (d1, d2, none)
      | _, c2 :: r2t =>
        if c2 = '.' then
          let d3 := r2t.takeWhile isDigitC
          let r3 := r2t.dropWhile isDigitC
          match d3, r3 with
          | [], _ => none
          | _, [] => some (d1, d2, some d3)
          | _, _ :: _ => none
        else none
    else none

/-- Capture extraction of the snapshot regex `^(\d+)w(\d+)(\w+)$`:
returns (`year`, `week`, `specifier`) when the string matches, `none`
otherwise. The first group is the maximal leading digit run followed by a
literal `w`; the second group is greedy, backing off one digit when
nothing would be left for the mandatory `(\w+)` specifier. -/
def snapshotCaptures (cs : List Char) : Option (List Char × List Char × List Char) :=
  let d1 := cs.takeWhile isDigitC
  let r1 := cs.dropWhile isDigitC
  match d1, r1 with
  | [], _ => none
  | _, [] => none
  | _, c1 :: r1t =>
    if c1 = 'w' then
      let d2 := r1t.takeWhile isDigitC
      let t := r1t.dropWhile isDigitC
      match d2, t with
      | [], _ => none
      | _, _ :: _ => if t.all isWordC then some (d1, d2, t) else none
      | _, [] =>
        if 2 ≤ d2.length then some (d1, d2.dropLast, [d2.getLastD '*']) else none
    else none

/-- The release branch of `Minecraft::new`: parse the three captured
components as `u16`, wrapping parse failures in `InvalidComponent`. -/
def releaseFromCaptures (caps : List Char × List Char × Option (List Char)) :
    Except MinecraftVersionError Minecraft :=
  match parseU16 caps.1 with
  | .error e => .error (.InvalidComponent e)
  | .ok major =>
    match parseU16 caps.2.1 with
    | .error e => .error (.InvalidComponent e)
    | .ok minor =>
      match caps.2.2 with
      | none => .ok (.Release major minor none)
      | some d3 =>
        match parseU16 d3 with
        | .error e => .error (.InvalidComponent e)
        | .ok patch => .ok (.Release major minor (some patch))

/-- The snapshot branch of `Minecraft::new`: parse year and week as `u16`,
keep the specifier as a string. -/
def snapshotFromCaptures (caps : List Char × List Char × List Char) :
    Except MinecraftVersionError Minecraft :=
  match parseU16 caps.1 with
  | .error e => .error (.InvalidComponent e)
  | .ok year =>
    match parseU16 caps.2.1 with
    | .error e => .error (.InvalidComponent e)
    | .ok week => .ok (.Snapshot year week (String.mk caps.2.2))

/-- Model of `Minecraft::new`: try the release regex first, then the
snapshot regex, and fail with `NoSupportedPattern` carrying the input when
neither matches. -/
def Minecraft.new (s : String) : Except MinecraftVersionError Minecraft :=
  match releaseCaptures s.data with
  | some caps => releaseFromCaptures caps
  | none =>
    match snapshotCaptures s.data with
    | some caps => snapshotFromCaptures caps
    | none => .error (.NoSupportedPattern s)

/-- Model of `Minecraft::order_priority`. -/
def Minecraft.order_priority : Minecraft → Nat
  | .Release _ _ _ => 1
  | .Snapshot _ _ _ => 2

/-- Rust's derived `Ord` for `Option<u16>`: `None` is less than `Some`. -/
def cmpOptNat : Option Nat → Option Nat → Ordering
  | none, none => .eq
  | none, some _ => .lt
  | some _, none => .gt
  | some a, some b => compare a b

/-- Lexicographic comparison of character lists by code point, modelling
Rust's `Ord for String` (byte-wise UTF-8 order equals code-point order). -/
def cmpChars : List Char → List Char → Ordering
  | [], [] => .eq
  | [], _ :: _ => .lt
  | _ :: _, [] => .gt
  | a :: as, b :: bs =>
    match compare a.toNat b.toNat with
    | .eq => cmpChars as bs
    | o => o

/-- Comparison of strings, used for snapshot specifiers and file paths. -/
def cmpString (a b : String) : Ordering := cmpChars a.data b.data

/-- Model of `Ord for Minecraft` (`cmp`): priority first, then a
field-by-field semver-style comparison inside the same variant. The
cross-variant inner cases are `unreachable!()` in the source because the
priorities differ; the model returns `.eq` there, a value that is never
produced. -/
def Minecraft.cmp (self other : Minecraft) : Ordering :=
  match compare self.order_priority other.order_priority with
  | .eq =>
    match self with
    | .Release majorS minorS patchS =>
      match other with
      | .Release majorO minorO patchO =>
        match compare majorS majorO, compare minorS minorO, cmpOptNat patchS patchO with
        | .eq, .eq, patch => patch
        | .eq, minor, _ => minor
        | major, _, _ => major
      | _ => .eq
    | .Snapshot yearS weekS specifierS =>
      match other with
      | .Snapshot yearO weekO specifierO =>
        match compare yearS yearO, compare weekS weekO, cmpString specifierS specifierO with
        | .eq, .eq, specifier => specifier
        | .eq, week, _ => week
        | year, _, _ => year
      | _ => .eq
  | x => x

/-- Model of `Display for Minecraft`: `major.minor[.patch]` for releases,
`{year}w{week}{specifier}` for snapshots (braces written literally here). -/
def Minecraft.display : Minecraft → String
  | .Release major minor none => String.mk (natRepr major ++ '.' :: natRepr minor)
  | .Release major minor (some patch) =>
      String.mk (natRepr major ++ '.' :: natRepr minor ++ '.' :: natRepr patch)
  | .Snapshot year week specifier =>
      String.mk (natRepr year ++ 'w' :: natRepr week ++ specifier.data)

/-- A digit string is written canonically when it has no superfluous
leading zero (it is `"0"` itself, or does not start with `'0'`). -/
def canonicalB (ds : List Char) : Bool := ds == ['0'] || ds.head? != some '0'

/-- Every numeric component captured by whichever grammar matches `s` is
written canonically (no leading zeros). Strings matched by neither grammar
satisfy this vacuously. -/
def componentsCanonical (s : String) : Bool :=
  match releaseCaptures s.data with
  | some (d1, d2, none) => canonicalB d1 && canonicalB d2
  | some (d1, d2, some d3) => canonicalB d1 && canonicalB d2 && canonicalB d3
  | none =>
    match snapshotCaptures s.data with
    | some (d1, d2, _) => canonicalB d1 && canonicalB d2
    | none => true

/-! Files model (`src/types/files.rs`). -/

/-- Marker to determine if a mod is needed on the server, the client, or both. -/
inductive Side where
  | Client
  | Server
  | Both
deriving DecidableEq, Repr

/-- Sources a file can come from (enum `Source`). `Url` and semver values
are modelled by their string form; a `blake3` digest is a list of bytes
(`[u8; 32]` is a 32-byte array, stated as a hypothesis where it matters). -/
inductive Source where
  | Url (url : String) (blake3 : List Nat)
  | Path (path : String) (blake3 : List Nat)
  | Git (url : String) (branch : Option String)
  | Slug (slug : String) (branch : Option String)
  | SlugReleases (slug : String) (artifact_regex : String) (release_regex : Option String)
  | Modrinth (slug : String)
  | Curseforge (slug : String)
deriving DecidableEq, Repr

/-- Description of a managed file in the pack (struct `ManagedFile`).
`RelativePathBuf` is modelled by its inner string. -/
structure ManagedFile where
  name : Option String
  description : Option String
  filename : String
  devel : Bool
  path : String
  side : Side
  source : Source
deriving DecidableEq, Repr

/-- The hand-written `Ord for ManagedFile`: compare by `path` alone
(`RelativePathBuf`'s derived `Ord` is its inner string's lexicographic order). -/
def ManagedFile.cmp (self other : ManagedFile) : Ordering :=
  cmpString self.path other.path

/-- Model of `BTreeSet::insert` on the sorted element list: keep the list
sorted; when an element comparing equal is already present the set is left
unchanged (the entry is not updated). -/
def btreeInsert (x : ManagedFile) : List ManagedFile → List ManagedFile
  | [] => [x]
  | y :: ys =>
    match ManagedFile.cmp x y with
    | .lt => x :: y :: ys
    | .eq => y :: ys
    | .gt => y :: btreeInsert x ys

/-- Model of collecting an iterator into a `BTreeSet<ManagedFile>`. -/
def btreeOfList (l : List ManagedFile) : List ManagedFile :=
  l.foldl (fun s x => btreeInsert x s) []

/-- The `BTreeSet` representation invariant: the element list is strictly
increasing in the element order (here, the path-only `ManagedFile` order). -/
def StrictSorted (l : List ManagedFile) : Prop :=
  List.Pairwise (fun a b => ManagedFile.cmp a b = .lt) l

/-- A `BTreeSet<ManagedFile>`: the strictly sorted list of its elements,
in iteration (ascending) order. -/
def BTreeSetMF := { l : List ManagedFile // StrictSorted l }

/-- The metadata for the pack (struct `Metadata` in `src/types.rs`);
the semver `Version` is modelled by its string form. -/
structure Metadata where
  name : String
  description : Option String
  author : String
  version : String
deriving DecidableEq, Repr

/-- A decoded loader + version combo (enum `Loader` in `src/types/loader.rs`). -/
inductive Loader where
  | Quilt (version : String)
  | Fabric (version : String)
  | Forge (version : String)
deriving DecidableEq, Repr

/-- The versions of minecraft and the launcher (struct `Versions`). -/
structure Versions where
  minecraft : Minecraft
  loader : Loader
deriving DecidableEq, Repr

/-- High level representation of a modpack (struct `Pack` in `src/lib.rs`). -/
structure Pack where
  metadata : Metadata
  versions : Versions
  managed_files : BTreeSetMF

/-! Wire format (serde derives plus `hex::serde`).

The serializers below are read off the serde attributes in the source:
externally tagged `Source`, internally tagged `Minecraft` (`tag = "type"`),
adjacently tagged `Loader` (`tag = "loader"`, `content = "version"`),
`skip_serializing_if = "Option::is_none"` on the optional fields, and
`with = "hex::serde"` on `blake3` digests. -/

/-- Structured output value (the JSON data model of `serde_json`). -/
inductive Json where
  | str (s : String)
  | num (n : Nat)
  | bool (b : Bool)
  | null
  | arr (xs : List Json)
  | obj (fields : List (String × Json))

/-- Key lookup in an object value. -/
def objField : Json → String → Option Json
  | .obj fields, key => fields.lookup key
  | _, _ => none

/-- Keys of an object value, in emission order. -/
def objKeys : Json → List String
  | .obj fields => fields.map Prod.fst
  | _ => []

/-- The lowercase hex digit character for `n < 16`. -/
def hexDigitChar (n : Nat) : Char :=
  match n with
  | 0 => '0' | 1 => '1' | 2 => '2' | 3 => '3' | 4 => '4'
  | 5 => '5' | 6 => '6' | 7 => '7' | 8 => '8' | 9 => '9'
  | 10 => 'a' | 11 => 'b' | 12 => 'c' | 13 => 'd' | 14 => 'e' | 15 => 'f'
  | _ => '*'

/-- A lowercase hex digit character (`[0-9a-f]`). -/
def isLowerHexC (c : Char) : Bool := isDigitC c || (97 ≤ c.toNat && c.toNat ≤ 102)

/-- Modelled from the spec: the `hex` crate's serialization of a byte
array (used through `#[serde(with = "hex::serde")]`, the crate itself is
not part of this repository): each byte becomes two lowercase hex digits,
high nibble first. -/
def hexEncodeBytes (bytes : List Nat) : String :=
  String.mk (bytes.foldr (fun b acc => hexDigitChar (b / 16) :: hexDigitChar (b % 16) :: acc) [])

/-- Model of the `hex` crate's `FromHexError`. -/
inductive HexError where
  | invalidHexCharacter
  | oddLength
  | invalidStringLength
deriving DecidableEq, Repr

/-- Numeric value of a hex digit character (either case), `none` when the
character is not a hex digit. -/
def hexCharVal (c : Char) : Option Nat :=
  if 48 ≤ c.toNat ∧ c.toNat ≤ 57 then some (c.toNat - 48)
  else if 97 ≤ c.toNat ∧ c.toNat ≤ 102 then some (c.toNat - 87)
  else if 65 ≤ c.toNat ∧ c.toNat ≤ 70 then some (c.toNat - 55)
  else none

/-- Modelled from the spec: strict hex decoding of a character list into
bytes, two characters per byte; any non-hex character is an error. -/
def hexDecodePairs : List Char → Except HexError (List Nat)
  | [] => .ok []
  | [_] => .error .oddLength
  | hi :: lo :: rest =>
    match hexCharVal hi, hexCharVal lo with
    | some h, some l =>
      match hexDecodePairs rest with
      | .ok bs => .ok ((16 * h + l) :: bs)
      | .error e => .error e
    | _, _ => .error .invalidHexCharacter

/-- Modelled from the spec: deserialization of a `blake3` field
(`[u8; 32]` through `hex::serde`): the hex string must be exactly 64
characters (else `InvalidStringLength`) and decode to exactly 32 bytes. -/
def hexDecode32 (s : String) : Except HexError (List Nat) :=
  if s.data.length = 64 then hexDecodePairs s.data else .error .invalidStringLength

/-- Serialization of a unit variant of `Side`. -/
def serializeSide : Side → Json
  | .Client => .str "Client"
  | .Server => .str "Server"
  | .Both => .str "Both"

/-- An optional string field: omitted entirely when `none`
(`skip_serializing_if = "Option::is_none"`). -/
def optField (key : String) : Option String → List (String × Json)
  | none => []
  | some v => [(key, .str v)]

/-- Serialization of `Source` (externally tagged, the serde default). -/
def serializeSource : Source → Json
  | .Url url blake3 =>
    .obj [("Url", .obj [("url", .str url), ("blake3", .str (hexEncodeBytes blake3))])]
  | .Path path blake3 =>
    .obj [("Path", .obj [("path", .str path), ("blake3", .str (hexEncodeBytes blake3))])]
  | .Git url branch =>
    .obj [("Git", .obj ([("url", .str url)] ++ optField "branch" branch))]
  | .Slug slug branch =>
    .obj [("Slug", .obj ([("slug", .str slug)] ++ optField "branch" branch))]
  | .SlugReleases slug artifact rel =>
    .obj [("SlugReleases", .obj ([("slug", .str slug), ("artifact_regex", .str artifact)] ++
      optField "release_regex" rel))]
  | .Modrinth slug => .obj [("Modrinth", .obj [("slug", .str slug)])]
  | .Curseforge slug => .obj [("Curseforge", .obj [("slug", .str slug)])]

/-- Serialization of `ManagedFile` (fields in declaration order, optional
fields omitted when `none`). -/
def serializeManagedFile (mf : ManagedFile) : Json :=
  .obj (optField "name" mf.name ++ optField "description" mf.description ++
    [("filename", .str mf.filename), ("devel", .bool mf.devel), ("path", .str mf.path),
     ("side", serializeSide mf.side), ("source", serializeSource mf.source)])

/-- Serialization of `Minecraft` (internally tagged on `"type"`, `patch`
omitted when `none`). -/
def serializeMinecraft : Minecraft → Json
  | .Release major minor patch =>
    .obj ([("type", .str "Release"), ("major", .num major), ("minor", .num minor)] ++
      (match patch with | none => [] | some p => [("patch", .num p)]))
  | .Snapshot year week specifier =>
    .obj [("type", .str "Snapshot"), ("year", .num year), ("week", .num week),
      ("specifier", .str specifier)]

/-- Serialization of `Loader` (adjacently tagged: `"loader"` / `"version"`). -/
def serializeLoader : Loader → Json
  | .Quilt v => .obj [("loader", .str "Quilt"), ("version", .str v)]
  | .Fabric v => .obj [("loader", .str "Fabric"), ("version", .str v)]
  | .Forge v => .obj [("loader", .str "Forge"), ("version", .str v)]

/-- Serialization of `Versions`. -/
def serializeVersions (v : Versions) : Json :=
  .obj [("minecraft", serializeMinecraft v.minecraft), ("loader", serializeLoader v.loader)]

/-- Serialization of `Metadata`. -/
def serializeMetadata (m : Metadata) : Json :=
  .obj ([("name", .str m.name)] ++ optField "description" m.description ++
    [("author", .str m.author), ("version", .str m.version)])

/-- Serialization of `Pack`: `managed_files` becomes the array of its
elements in the set's ascending iteration order. -/
def serializePack (p : Pack) : Json :=
  .obj [("metadata", serializeMetadata p.metadata), ("versions", serializeVersions p.versions),
    ("managed_files", .arr (p.managed_files.val.map serializeManagedFile))]

end FFPack

deriving instance DecidableEq for Except

/-! Theorems below: helper lemmas first, then one theorem per claim (with witnesses and
counterexamples where required).
-/

namespace FFPack



theorem charToNat_inj {a b : Char} (h : a.toNat = b.toNat) : a = b := by
  apply Char.ext
  exact UInt32.toNat.inj h

theorem isDigitC_iff {c : Char} : isDigitC c = true ↔ 48 ≤ c.toNat ∧ c.toNat ≤ 57 := by
  simp [isDigitC, Bool.and_eq_true, decide_eq_true_eq]

theorem digitChar_charVal {c : Char} (h : isDigitC c = true) : digitChar (charVal c) = c := by
  have h1 := isDigitC_iff.1 h
  apply charToNat_inj
  have hc : c.toNat = 48 + charVal c := by unfold charVal; omega
  have hk : charVal c = 0 ∨ charVal c = 1 ∨ charVal c = 2 ∨ charVal c = 3 ∨ charVal c = 4 ∨
      charVal c = 5 ∨ charVal c = 6 ∨ charVal c = 7 ∨ charVal c = 8 ∨ charVal c = 9 := by
    unfold charVal; omega
  rcases hk with h'|h'|h'|h'|h'|h'|h'|h'|h'|h' <;> rw [hc, h'] <;> decide

theorem toDecimalAux_zero (f : Nat) : toDecimalAux f 0 = [] := by
  cases f <;> simp [toDecimalAux]

theorem toDecimalAux_fuel (n : Nat) : ∀ f g, n ≤ f → n ≤ g → toDecimalAux f n = toDecimalAux g n := by
  induction n using Nat.strong_induction_on with
  | _ n ih =>
    intro f g hf hg
    rcases Nat.eq_zero_or_pos n with hn | hn
    · subst hn; rw [toDecimalAux_zero, toDecimalAux_zero]
    · obtain ⟨f', rfl⟩ : ∃ f', f = f' + 1 := ⟨f - 1, by omega⟩
      obtain ⟨g', rfl⟩ : ∃ g', g = g' + 1 := ⟨g - 1, by omega⟩
      have hne : ¬ (n = 0) := by omega
      have hd : n / 10 < n := Nat.div_lt_self hn (by norm_num)
      simp only [toDecimalAux, if_neg hne]
      rw [ih (n / 10) hd f' g' (by omega) (by omega)]

theorem toDecimal_step (n : Nat) (hn : 0 < n) :
    toDecimalAux n n = toDecimalAux (n / 10) (n / 10) ++ [digitChar (n % 10)] := by
  obtain ⟨m, rfl⟩ : ∃ m, n = m + 1 := ⟨n - 1, by omega⟩
  have h1 : toDecimalAux (m + 1) (m + 1) =
      toDecimalAux m ((m + 1) / 10) ++ [digitChar ((m + 1) % 10)] := by
    simp [toDecimalAux]
  have hd : (m + 1) / 10 < m + 1 := Nat.div_lt_self (by omega) (by norm_num)
  rw [h1, toDecimalAux_fuel ((m + 1) / 10) m ((m + 1) / 10) (by omega) (Nat.le_refl _)]

theorem valFoldl_pos (l : List Char) : ∀ a : Nat, 0 < a →
    0 < List.foldl (fun a c => 10 * a + charVal c) a l := by
  induction l with
  | nil => intro a ha; simpa using ha
  | cons c r ih =>
    intro a ha
    rw [List.foldl_cons]
    exact ih (10 * a + charVal c) (by omega)

theorem charVal_pos {c : Char} (hd : isDigitC c = true) (h0 : c ≠ '0') : 1 ≤ charVal c := by
  have h1 := isDigitC_iff.1 hd
  have : c.toNat ≠ 48 := by
    intro hc; exact h0 (charToNat_inj (by rw [hc]; rfl))
  unfold charVal; omega

theorem charVal_le {c : Char} (hd : isDigitC c = true) : charVal c ≤ 9 := by
  have h1 := isDigitC_iff.1 hd
  unfold charVal; omega

theorem valDigits_pos {a : Char} {init' : List Char} (ha : isDigitC a = true) (h0 : a ≠ '0') :
    0 < valDigits (a :: init') := by
  have h1 : valDigits (a :: init') =
      List.foldl (fun a c => 10 * a + charVal c) (10 * 0 + charVal a) init' := by
    simp [valDigits]
  rw [h1]
  exact valFoldl_pos init' _ (by have := charVal_pos ha h0; omega)

theorem canonicalB_iff {ds : List Char} :
    canonicalB ds = true ↔ (ds = ['0'] ∨ ds.head? ≠ some '0') := by
  simp [canonicalB]

theorem natRepr_valDigits : ∀ (ds : List Char), ds ≠ [] → (∀ c ∈ ds, isDigitC c = true) →
    canonicalB ds = true → natRepr (valDigits ds) = ds := by
  intro ds
  induction ds using List.reverseRecOn with
  | nil => intro h; exact absurd rfl h
  | append_singleton init c ih =>
    intro _ hdig hcanon
    have hcd : isDigitC c = true := hdig c (by simp)
    have hsplit : valDigits (init ++ [c]) = 10 * valDigits init + charVal c := by
      simp [valDigits, List.foldl_append]
    by_cases hinit : init = []
    · subst hinit
      simp only [List.nil_append] at hsplit ⊢
      rw [hsplit]
      by_cases h0 : c = '0'
      · subst h0; simp [natRepr, valDigits, charVal]
      · have hge := charVal_pos hcd h0
        have hle := charVal_le hcd
        have hv0 : valDigits ([] : List Char) = 0 := rfl
        rw [hv0]
        have hn : 10 * 0 + charVal c = charVal c := by omega
        rw [hn]
        have hne : ¬ (charVal c = 0) := by omega
        rw [natRepr, if_neg hne, toDecimal_step _ (by omega)]
        have hdiv : charVal c / 10 = 0 := by omega
        have hmod : charVal c % 10 = charVal c := by omega
        rw [hdiv, hmod, toDecimalAux_zero, digitChar_charVal hcd]
        rfl
    · obtain ⟨a, init', rfl⟩ := List.exists_cons_of_ne_nil hinit
      have hha : isDigitC a = true := hdig a (by simp)
      -- the head of the whole string is the head of `init`
      have hhead : a ≠ '0' := by
        rcases canonicalB_iff.1 hcanon with h | h
        · exfalso
          have hl := congrArg List.length h
          simp only [List.length_cons, List.length_append, List.length_singleton] at hl
          omega
        · intro h0; subst h0; exact h rfl
      have hdiginit : ∀ c' ∈ a :: init', isDigitC c' = true := by
        intro c' hc'
        apply hdig
        simp only [List.mem_cons, List.mem_append, List.mem_singleton] at hc' ⊢
        tauto
      have hcaninit : canonicalB (a :: init') = true := by
        apply canonicalB_iff.2
        right
        intro h0
        simp at h0
        exact hhead h0
      have ihv := ih (by simp) hdiginit hcaninit
      have hv : 0 < valDigits (a :: init') := valDigits_pos hha hhead
      set v := valDigits (a :: init') with hvdef
      have hled := charVal_le hcd
      rw [hsplit]
      have hne : ¬ (10 * v + charVal c = 0) := by omega
      rw [natRepr, if_neg hne, toDecimal_step _ (by omega)]
      have hdiv : (10 * v + charVal c) / 10 = v := by omega
      have hmod : (10 * v + charVal c) % 10 = charVal c := by omega
      rw [hdiv, hmod, digitChar_charVal hcd]
      have : toDecimalAux v v = a :: init' := by
        rw [natRepr, if_neg (by omega)] at ihv
        exact ihv
      rw [this]





theorem mk_data (s : String) : String.mk s.data = s := rfl

theorem releaseCaptures_spec {cs : List Char} {d1 d2 : List Char} {p : Option (List Char)}
    (h : releaseCaptures cs = some (d1, d2, p)) :
    d1 ≠ [] ∧ d2 ≠ [] ∧ (∀ c ∈ d1, isDigitC c = true) ∧ (∀ c ∈ d2, isDigitC c = true) ∧
    (match p with
     | none => cs = d1 ++ '.' :: d2
     | some d3 => d3 ≠ [] ∧ (∀ c ∈ d3, isDigitC c = true) ∧ cs = d1 ++ '.' :: d2 ++ '.' :: d3) := by
  have hcs := List.takeWhile_append_dropWhile isDigitC cs
  simp only [releaseCaptures] at h
  split at h
  · exact absurd h (by simp)
  · exact absurd h (by simp)
  next c1 r1t heq1 heq2 =>
    have hr1 := List.takeWhile_append_dropWhile isDigitC r1t
    split at h
    case isTrue hdot =>
      split at h
      · exact absurd h (by simp)
      next heq3 heq4 =>
        injection h with h
        injection h with h1 h
        injection h with h2 h3
        subst h1; subst h2; subst h3
        subst hdot
        refine ⟨fun hd1 => heq2 hd1, fun hd2 => heq4 hd2,
          fun c hc => List.mem_takeWhile_imp hc, fun c hc => List.mem_takeWhile_imp hc, ?_⟩
        show cs = _
        rw [heq3, List.append_nil] at hr1
        conv_lhs => rw [← hcs, heq1]
        rw [hr1]
      next c2 r2t heq3 heq4 =>
        split at h
        case isTrue hdot2 =>
          split at h
          · exact absurd h (by simp)
          next heq5 heq6 =>
            have hr2 := List.takeWhile_append_dropWhile isDigitC r2t
            injection h with h
            injection h with h1 h
            injection h with h2 h3
            subst h1; subst h2; subst h3
            subst hdot; subst hdot2
            refine ⟨fun hd1 => heq2 hd1, fun hd2 => heq4 hd2,
              fun c hc => List.mem_takeWhile_imp hc, fun c hc => List.mem_takeWhile_imp hc,
              fun hd3 => heq6 hd3, fun c hc => List.mem_takeWhile_imp hc, ?_⟩
            show cs = _
            rw [heq5, List.append_nil] at hr2
            conv_lhs => rw [← hcs, heq1, ← hr1, heq3, ← hr2]
            simp [List.append_assoc]
          · exact absurd h (by simp)
        case isFalse => exact absurd h (by simp)
    case isFalse => exact absurd h (by simp)

theorem snapshotCaptures_spec {cs : List Char} {d1 d2 t : List Char}
    (h : snapshotCaptures cs = some (d1, d2, t)) :
    d1 ≠ [] ∧ d2 ≠ [] ∧ t ≠ [] ∧ (∀ c ∈ d1, isDigitC c = true) ∧ (∀ c ∈ d2, isDigitC c = true) ∧
    cs = d1 ++ 'w' :: d2 ++ t := by
  have hcs := List.takeWhile_append_dropWhile isDigitC cs
  simp only [snapshotCaptures] at h
  split at h
  · exact absurd h (by simp)
  · exact absurd h (by simp)
  next c1 r1t heq1 heq2 =>
    have hr1 := List.takeWhile_append_dropWhile isDigitC r1t
    split at h
    case isTrue hw =>
      split at h
      · exact absurd h (by simp)
      next c2 t2 heq3 heq4 =>
        -- specifier branch: dropWhile is nonempty
        split at h
        case isTrue hword =>
          injection h with h
          injection h with h1 h
          injection h with h2 h3
          subst h1; subst h2; subst h3
          subst hw
          refine ⟨fun hd1 => heq2 hd1, fun hd2 => heq4 hd2, by simp [heq3],
            fun c hc => List.mem_takeWhile_imp hc, fun c hc => List.mem_takeWhile_imp hc, ?_⟩
          show cs = _
          conv_lhs => rw [← hcs, heq1, ← hr1]
          rw [heq3]
          simp [List.append_assoc]
        case isFalse => exact absurd h (by simp)
      next heq3 heq4 =>
        -- week back-off branch: dropWhile is empty, week digits split
        split at h
        case isTrue hlen =>
          injection h with h
          injection h with h1 h
          injection h with h2 h3
          subst h1; subst h2; subst h3
          subst hw
          have hne : r1t.takeWhile isDigitC ≠ [] := fun hd => heq4 hd
          have hlast := List.dropLast_append_getLast hne
          have hgd : (r1t.takeWhile isDigitC).getLastD '*' = (r1t.takeWhile isDigitC).getLast hne := by
            rw [List.getLastD_eq_getLast? '*' _, List.getLast?_eq_getLast _ hne]
            rfl
          refine ⟨fun hd1 => heq2 hd1, ?_, by simp, fun c hc => List.mem_takeWhile_imp hc,
            ?_, ?_⟩
          · intro hd
            have := congrArg List.length hd
            have hl2 := hlen
            simp only [List.length_dropLast] at this
            simp only [List.length_nil] at this
            omega
          · intro c hc
            exact List.mem_takeWhile_imp (List.dropLast_subset _ hc)
          · show cs = _
            rw [← hgd] at hlast
            rw [heq3, List.append_nil] at hr1
            conv_lhs => rw [← hcs, heq1, ← hr1]
            simp only [List.append_assoc, List.cons_append]
            rw [hlast]
        case isFalse => exact absurd h (by simp)
    case isFalse => exact absurd h (by simp)

theorem parseU16_ok {ds : List Char} {n : Nat} (h : parseU16 ds = .ok n) :
    n = valDigits ds ∧ valDigits ds ≤ 65535 := by
  unfold parseU16 at h
  split at h
  · exact absurd h (by simp)
  · split at h
    · split at h
      · refine ⟨?_, by assumption⟩
        injection h with h
        exact h.symm
      · exact absurd h (by simp)
    · exact absurd h (by simp)

theorem parseU16_of_digits {ds : List Char} (hne : ds ≠ []) (hdig : ∀ c ∈ ds, isDigitC c = true) :
    parseU16 ds = if valDigits ds ≤ 65535 then .ok (valDigits ds) else .error .posOverflow := by
  unfold parseU16
  rw [if_neg, if_pos]
  · exact List.all_eq_true.2 hdig
  · simp [List.isEmpty_iff, hne]



theorem display_new (s : String) (v : Minecraft) (hparse : Minecraft.new s = .ok v)
    (hcanon : componentsCanonical s = true) : v.display = s := by
  unfold Minecraft.new at hparse
  unfold componentsCanonical at hcanon
  split at hparse
  next caps hrel =>
    obtain ⟨d1, d2, p⟩ := caps
    obtain ⟨h1ne, h2ne, h1dig, h2dig, hrest⟩ := releaseCaptures_spec hrel
    rw [hrel] at hcanon
    cases p with
    | none =>
      simp only [Bool.and_eq_true] at hcanon
      obtain ⟨hc1, hc2⟩ := hcanon
      have hs : s.data = d1 ++ '.' :: d2 := hrest
      simp only [releaseFromCaptures] at hparse
      split at hparse
      · exact absurd hparse (by simp)
      next major heqM =>
        split at hparse
        · exact absurd hparse (by simp)
        next minor heqN =>
          injection hparse with hv
          subst hv
          obtain ⟨rfl, hle1⟩ := parseU16_ok heqM
          obtain ⟨rfl, hle2⟩ := parseU16_ok heqN
          simp only [Minecraft.display]
          rw [natRepr_valDigits d1 h1ne h1dig hc1, natRepr_valDigits d2 h2ne h2dig hc2]
          rw [← hs]
    | some d3 =>
      simp only [Bool.and_eq_true] at hcanon
      obtain ⟨⟨hc1, hc2⟩, hc3⟩ := hcanon
      obtain ⟨h3ne, h3dig, hs⟩ := hrest
      simp only [releaseFromCaptures] at hparse
      split at hparse
      · exact absurd hparse (by simp)
      next major heqM =>
        split at hparse
        · exact absurd hparse (by simp)
        next minor heqN =>
          split at hparse
          · exact absurd hparse (by simp)
          next patch heqP =>
            injection hparse with hv
            subst hv
            obtain ⟨rfl, hle1⟩ := parseU16_ok heqM
            obtain ⟨rfl, hle2⟩ := parseU16_ok heqN
            obtain ⟨rfl, hle3⟩ := parseU16_ok heqP
            simp only [Minecraft.display]
            rw [natRepr_valDigits d1 h1ne h1dig hc1, natRepr_valDigits d2 h2ne h2dig hc2,
              natRepr_valDigits d3 h3ne h3dig hc3]
            rw [← hs]
  next hrel =>
    split at hparse
    next caps hsnap =>
      obtain ⟨d1, d2, t⟩ := caps
      obtain ⟨h1ne, h2ne, htne, h1dig, h2dig, hs⟩ := snapshotCaptures_spec hsnap
      rw [hrel, hsnap] at hcanon
      simp only [Bool.and_eq_true] at hcanon
      obtain ⟨hc1, hc2⟩ := hcanon
      simp only [snapshotFromCaptures] at hparse
      split at hparse
      · exact absurd hparse (by simp)
      next year heqY =>
        split at hparse
        · exact absurd hparse (by simp)
        next week heqW =>
          injection hparse with hv
          subst hv
          obtain ⟨rfl, hle1⟩ := parseU16_ok heqY
          obtain ⟨rfl, hle2⟩ := parseU16_ok heqW
          simp only [Minecraft.display]
          rw [natRepr_valDigits d1 h1ne h1dig hc1, natRepr_valDigits d2 h2ne h2dig hc2]
          rw [← hs]
    next => exact absurd hparse (by simp)

/-- C1 (amended): for every string accepted by either version grammar whose
numeric components are written canonically (no superfluous leading zeros),
a successful `Minecraft::new` parse followed by `Display` yields exactly the
input string; and the three concrete displays of the claim hold. -/
theorem display_roundtrip_canonical :
    (∀ (s : String) (v : Minecraft), Minecraft.new s = .ok v →
      componentsCanonical s = true → v.display = s) ∧
    (Minecraft.Release 1 19 none).display = "1.19" ∧
    (Minecraft.Release 1 18 (some 2)).display = "1.18.2" ∧
    (Minecraft.Snapshot 18 10 "d").display = "18w10d" :=
  ⟨display_new, by decide, by decide, by decide⟩

/-- C1 counterexample: `"1.01"` is accepted by the release grammar and
`Minecraft::new` succeeds on it, but the parsed value displays as `"1.1"`,
not `"1.01"`: the round-trip fails on numeric components with leading zeros. -/
theorem display_roundtrip_counterexample :
    Minecraft.new "1.01" = .ok (Minecraft.Release 1 1 none) ∧
    (Minecraft.Release 1 1 none).display = "1.1" ∧ ("1.1" : String) ≠ "1.01" :=
  ⟨by decide, by decide, by decide⟩

/-- Witness for C1: the amended round-trip at the concrete input `"1.18.2"`. -/
theorem display_roundtrip_canonical_witness :
    (Minecraft.Release 1 18 (some 2)).display = "1.18.2" :=
  display_roundtrip_canonical.1 "1.18.2" (Minecraft.Release 1 18 (some 2))
    (by decide) (by decide)


/-- C2: `Minecraft::new` evaluates the release grammar first and the snapshot
grammar second; when neither matches it fails with `NoSupportedPattern`
carrying the input (concretely on `"not a version"`), and a matched numeric
component exceeding `u16::MAX` fails with `InvalidComponent` wrapping the
positive-overflow parse error (concretely on `"99999.0"`). -/
theorem new_error_spec :
    (Minecraft.new "not a version" = .error (.NoSupportedPattern "not a version")) ∧
    (Minecraft.new "99999.0" = .error (.InvalidComponent .posOverflow)) ∧
    (∀ (s : String) caps, releaseCaptures s.data = some caps →
      Minecraft.new s = releaseFromCaptures caps) ∧
    (∀ (s : String) caps, releaseCaptures s.data = none → snapshotCaptures s.data = some caps →
      Minecraft.new s = snapshotFromCaptures caps) ∧
    (∀ s : String, releaseCaptures s.data = none → snapshotCaptures s.data = none →
      Minecraft.new s = .error (.NoSupportedPattern s)) ∧
    (∀ (s : String) (d1 d2 : List Char) (p : Option (List Char)),
      releaseCaptures s.data = some (d1, d2, p) →
      (65536 ≤ valDigits d1 ∨ 65536 ≤ valDigits d2 ∨
        (∃ d3, p = some d3 ∧ 65536 ≤ valDigits d3)) →
      Minecraft.new s = .error (.InvalidComponent .posOverflow)) ∧
    (∀ (s : String) (d1 d2 t : List Char),
      releaseCaptures s.data = none → snapshotCaptures s.data = some (d1, d2, t) →
      (65536 ≤ valDigits d1 ∨ 65536 ≤ valDigits d2) →
      Minecraft.new s = .error (.InvalidComponent .posOverflow)) := by
  refine ⟨by decide, by decide, ?_, ?_, ?_, ?_, ?_⟩
  · intro s caps h
    unfold Minecraft.new
    rw [h]
  · intro s caps h1 h2
    unfold Minecraft.new
    rw [h1, h2]
  · intro s h1 h2
    unfold Minecraft.new
    rw [h1, h2]
  · intro s d1 d2 p hrel hov
    obtain ⟨h1ne, h2ne, h1dig, h2dig, hrest⟩ := releaseCaptures_spec hrel
    unfold Minecraft.new
    rw [hrel]
    have hp1 := parseU16_of_digits h1ne h1dig
    have hp2 := parseU16_of_digits h2ne h2dig
    rcases hov with h | h | ⟨d3, hp, h⟩
    · rw [if_neg (by omega)] at hp1
      simp [releaseFromCaptures, hp1]
    · by_cases hov1 : valDigits d1 ≤ 65535
      · rw [if_pos hov1] at hp1
        rw [if_neg (by omega)] at hp2
        simp [releaseFromCaptures, hp1, hp2]
      · rw [if_neg hov1] at hp1
        simp [releaseFromCaptures, hp1]
    · subst hp
      obtain ⟨h3ne, h3dig, _⟩ := hrest
      have hp3 := parseU16_of_digits h3ne h3dig
      rw [if_neg (by omega)] at hp3
      by_cases hov1 : valDigits d1 ≤ 65535
      · rw [if_pos hov1] at hp1
        by_cases hov2 : valDigits d2 ≤ 65535
        · rw [if_pos hov2] at hp2
          simp [releaseFromCaptures, hp1, hp2, hp3]
        · rw [if_neg hov2] at hp2
          simp [releaseFromCaptures, hp1, hp2]
      · rw [if_neg hov1] at hp1
        simp [releaseFromCaptures, hp1]
  · intro s d1 d2 t hrel hsnap hov
    obtain ⟨h1ne, h2ne, _, h1dig, h2dig, _⟩ := snapshotCaptures_spec hsnap
    unfold Minecraft.new
    rw [hrel, hsnap]
    have hp1 := parseU16_of_digits h1ne h1dig
    have hp2 := parseU16_of_digits h2ne h2dig
    by_cases hov1 : valDigits d1 ≤ 65535
    · rw [if_pos hov1] at hp1
      rcases hov with h | h
      · omega
      · rw [if_neg (by omega)] at hp2
        simp [snapshotFromCaptures, hp1, hp2]
    · rw [if_neg hov1] at hp1
      simp [snapshotFromCaptures, hp1]

/-- Witness for C2: the no-match clause at the concrete input `"w18a"`. -/
theorem new_error_spec_witness :
    Minecraft.new "w18a" = .error (.NoSupportedPattern "w18a") :=
  new_error_spec.2.2.2.2.1 "w18a" (by decide) (by decide)

/-- C3: every `Release` compares strictly less than every `Snapshot`,
whatever the numeric and string fields; in particular the parse of
`"1.99.99"` compares strictly less than the parse of `"18w10d"`. -/
theorem release_lt_snapshot :
    (∀ (major minor : Nat) (patch : Option Nat) (year week : Nat) (specifier : String),
      (Minecraft.Release major minor patch).cmp (.Snapshot year week specifier) = .lt) ∧
    Minecraft.new "1.99.99" = .ok (.Release 1 99 (some 99)) ∧
    Minecraft.new "18w10d" = .ok (.Snapshot 18 10 "d") ∧
    (Minecraft.Release 1 99 (some 99)).cmp (.Snapshot 18 10 "d") = .lt := by
  refine ⟨?_, by decide, by decide, by decide⟩
  intro major minor patch year week specifier
  rfl

/-- C4: the nine versions of the claim all parse, and comparing the parsed
values at any two indices agrees with comparing the indices themselves
(releases by major, minor, patch; snapshots by year, week, specifier). -/
theorem order_consistent_with_index :
    (["1.1", "1.6.2", "1.18", "1.18.1", "1.18.2", "1.19", "18w10d", "22w28a", "22w28b"].map
        Minecraft.new =
      [.ok (.Release 1 1 none), .ok (.Release 1 6 (some 2)), .ok (.Release 1 18 none),
       .ok (.Release 1 18 (some 1)), .ok (.Release 1 18 (some 2)), .ok (.Release 1 19 none),
       .ok (.Snapshot 18 10 "d"), .ok (.Snapshot 22 28 "a"), .ok (.Snapshot 22 28 "b")]) ∧
    (∀ i j : Fin 9,
      (([.Release 1 1 none, .Release 1 6 (some 2), .Release 1 18 none,
         .Release 1 18 (some 1), .Release 1 18 (some 2), .Release 1 19 none,
         .Snapshot 18 10 "d", .Snapshot 22 28 "a", .Snapshot 22 28 "b"] : List Minecraft).get
          i).cmp
        (([.Release 1 1 none, .Release 1 6 (some 2), .Release 1 18 none,
           .Release 1 18 (some 1), .Release 1 18 (some 2), .Release 1 19 none,
           .Snapshot 18 10 "d", .Snapshot 22 28 "a", .Snapshot 22 28 "b"] : List Minecraft).get
          j) = compare i.val j.val) := by
  exact ⟨by decide, by decide⟩

/-- C10: at equal major and minor, a `Release` without a patch orders
strictly before a `Release` with any explicit patch, including patch `0`
(`None` is not coerced to zero). -/
theorem none_patch_lt_some_patch (m n p : Nat) :
    (Minecraft.Release m n none).cmp (.Release m n (some p)) = .lt := by
  have hm : compare m m = Ordering.eq := Nat.compare_eq_eq.2 rfl
  have hn : compare n n = Ordering.eq := Nat.compare_eq_eq.2 rfl
  have h1 : compare (1 : Nat) 1 = Ordering.eq := by decide
  simp [Minecraft.cmp, Minecraft.order_priority, cmpOptNat, hm, hn, h1]



theorem cmpChars_self (l : List Char) : cmpChars l l = .eq := by
  induction l with
  | nil => rfl
  | cons c r ih =>
    simp only [cmpChars]
    rw [Nat.compare_eq_eq.2 rfl]
    exact ih

theorem cmpChars_lt_trans : ∀ {a b c : List Char}, cmpChars a b = .lt → cmpChars b c = .lt →
    cmpChars a c = .lt := by
  intro a
  induction a with
  | nil =>
    intro b c hab hbc
    cases b with
    | nil => simp [cmpChars] at hab
    | cons y ys =>
      cases c with
      | nil => simp [cmpChars] at hbc
      | cons z zs => rfl
  | cons x xs ih =>
    intro b c hab hbc
    cases b with
    | nil => simp [cmpChars] at hab
    | cons y ys =>
      cases c with
      | nil => simp [cmpChars] at hbc
      | cons z zs =>
        simp only [cmpChars] at hab hbc ⊢
        cases hxy : compare x.toNat y.toNat with
        | lt =>
          rw [hxy] at hab
          cases hyz : compare y.toNat z.toNat with
          | lt =>
            have h1 := Nat.compare_eq_lt.1 hxy
            have h2 := Nat.compare_eq_lt.1 hyz
            rw [Nat.compare_eq_lt.2 (by omega)]
          | eq =>
            have h1 := Nat.compare_eq_lt.1 hxy
            have h2 := Nat.compare_eq_eq.1 hyz
            rw [Nat.compare_eq_lt.2 (by omega)]
          | gt => rw [hyz] at hbc; simp at hbc
        | eq =>
          rw [hxy] at hab
          cases hyz : compare y.toNat z.toNat with
          | lt =>
            have h1 := Nat.compare_eq_eq.1 hxy
            have h2 := Nat.compare_eq_lt.1 hyz
            rw [Nat.compare_eq_lt.2 (by omega)]
          | eq =>
            have h1 := Nat.compare_eq_eq.1 hxy
            have h2 := Nat.compare_eq_eq.1 hyz
            rw [Nat.compare_eq_eq.2 (by omega)]
            rw [hyz] at hbc
            exact ih hab hbc
          | gt => rw [hyz] at hbc; simp at hbc
        | gt => rw [hxy] at hab; simp at hab

theorem cmpChars_gt_iff : ∀ {a b : List Char}, cmpChars a b = .gt ↔ cmpChars b a = .lt := by
  intro a
  induction a with
  | nil =>
    intro b
    cases b with
    | nil => simp [cmpChars]
    | cons y ys => simp [cmpChars]
  | cons x xs ih =>
    intro b
    cases b with
    | nil => simp [cmpChars]
    | cons y ys =>
      simp only [cmpChars]
      cases hxy : compare x.toNat y.toNat with
      | lt =>
        have h1 := Nat.compare_eq_lt.1 hxy
        rw [Nat.compare_eq_gt.2 (by omega)]
        simp
      | eq =>
        have h1 := Nat.compare_eq_eq.1 hxy
        rw [Nat.compare_eq_eq.2 (by omega)]
        exact ih
      | gt =>
        have h1 := Nat.compare_eq_gt.1 hxy
        rw [Nat.compare_eq_lt.2 (by omega)]
        simp

theorem cmp_lt_trans {a b c : ManagedFile} (hab : ManagedFile.cmp a b = .lt)
    (hbc : ManagedFile.cmp b c = .lt) : ManagedFile.cmp a c = .lt :=
  cmpChars_lt_trans hab hbc

theorem cmp_gt_lt {a b : ManagedFile} (h : ManagedFile.cmp a b = .gt) :
    ManagedFile.cmp b a = .lt :=
  cmpChars_gt_iff.1 h

theorem mem_btreeInsert {z x : ManagedFile} : ∀ {l : List ManagedFile},
    z ∈ btreeInsert x l → z = x ∨ z ∈ l := by
  intro l
  induction l with
  | nil =>
    intro h
    simp only [btreeInsert] at h
    rcases List.mem_singleton.1 h with rfl
    exact .inl rfl
  | cons y ys ih =>
    intro h
    simp only [btreeInsert] at h
    split at h
    · rcases List.mem_cons.1 h with rfl | h2
      · exact .inl rfl
      · exact .inr h2
    · exact .inr h
    · rcases List.mem_cons.1 h with rfl | h2
      · exact .inr (List.mem_cons_self _ _)
      · rcases ih h2 with rfl | h3
        · exact .inl rfl
        · exact .inr (List.mem_cons_of_mem _ h3)

theorem btreeInsert_sorted {x : ManagedFile} : ∀ {l : List ManagedFile},
    StrictSorted l → StrictSorted (btreeInsert x l) := by
  intro l
  induction l with
  | nil => intro _; exact List.pairwise_singleton _ _
  | cons y ys ih =>
    intro h
    obtain ⟨hy, hys⟩ := List.pairwise_cons.1 h
    simp only [btreeInsert]
    split
    next hcmp =>
      apply List.pairwise_cons.2
      refine ⟨?_, h⟩
      intro b hb
      rcases List.mem_cons.1 hb with rfl | hb2
      · exact hcmp
      · exact cmp_lt_trans hcmp (hy b hb2)
    next => exact h
    next hcmp =>
      apply List.pairwise_cons.2
      refine ⟨?_, ih hys⟩
      intro b hb
      rcases mem_btreeInsert hb with rfl | hb2
      · exact cmp_gt_lt hcmp
      · exact hy b hb2

theorem btreeOfList_sorted (l : List ManagedFile) : StrictSorted (btreeOfList l) := by
  suffices h : ∀ acc, StrictSorted acc →
      StrictSorted (l.foldl (fun s x => btreeInsert x s) acc) from h [] List.Pairwise.nil
  induction l with
  | nil => intro acc h; exact h
  | cons x xs ih =>
    intro acc h
    rw [List.foldl_cons]
    exact ih _ (btreeInsert_sorted h)

/-- C5: collecting two `ManagedFile` values with the same path (and any
different other fields, e.g. the filename) into the `BTreeSet` backing a
`Pack`'s `managed_files` yields a collection of size 1: membership
deduplicates by path alone. -/
theorem managed_files_dedup_by_path (a b : ManagedFile) (hpath : a.path = b.path)
    (_hname : a.filename ≠ b.filename) : (btreeOfList [a, b]).length = 1 := by
  have hcmp : ManagedFile.cmp b a = .eq := by
    unfold ManagedFile.cmp cmpString
    rw [hpath]
    exact cmpChars_self _
  show (btreeInsert b (btreeInsert a [])).length = 1
  have h1 : btreeInsert a [] = [a] := rfl
  rw [h1]
  simp [btreeInsert, hcmp]

/-- Witness for C5: two concrete files sharing a path collapse to one entry. -/
theorem managed_files_dedup_witness :
    (btreeOfList [⟨none, none, "a.jar", false, "mods/x.jar", .Both, .Modrinth "a"⟩,
      ⟨none, none, "b.jar", false, "mods/x.jar", .Both, .Modrinth "a"⟩]).length = 1 :=
  managed_files_dedup_by_path _ _ rfl (by decide)

/-- C9: `ManagedFile`'s ordering is not consistent with its equality: two
values with the same path but different filenames compare `Equal` under the
hand-written `Ord` while the derived field-wise equality distinguishes them. -/
theorem cmp_eq_but_ne :
    ManagedFile.cmp ⟨none, none, "a.jar", false, "mods/x.jar", .Both, .Modrinth "a"⟩
      ⟨none, none, "b.jar", false, "mods/x.jar", .Both, .Modrinth "a"⟩ = .eq ∧
    (⟨none, none, "a.jar", false, "mods/x.jar", .Both, .Modrinth "a"⟩ : ManagedFile) ≠
      ⟨none, none, "b.jar", false, "mods/x.jar", .Both, .Modrinth "a"⟩ :=
  ⟨by decide, by decide⟩



theorem hexEncodeBytes_length (bytes : List Nat) :
    (hexEncodeBytes bytes).data.length = 2 * bytes.length := by
  induction bytes with
  | nil => rfl
  | cons b rest ih =>
    show (hexDigitChar (b / 16) :: hexDigitChar (b % 16) :: (hexEncodeBytes rest).data).length = _
    simp only [List.length_cons, List.length_cons]
    rw [ih]
    omega

theorem hexDigitChar_lower {n : Nat} (h : n < 16) : isLowerHexC (hexDigitChar n) = true := by
  interval_cases n <;> decide

theorem hexCharVal_hexDigitChar {n : Nat} (h : n < 16) :
    hexCharVal (hexDigitChar n) = some n := by
  interval_cases n <;> decide

theorem hexEncodeBytes_lower (bytes : List Nat) (h : ∀ b ∈ bytes, b < 256) :
    ∀ c ∈ (hexEncodeBytes bytes).data, isLowerHexC c = true := by
  induction bytes with
  | nil => intro c hc; simp [hexEncodeBytes] at hc
  | cons b rest ih =>
    intro c hc
    have hb : b < 256 := h b (by simp)
    have hdata : (hexEncodeBytes (b :: rest)).data =
        hexDigitChar (b / 16) :: hexDigitChar (b % 16) :: (hexEncodeBytes rest).data := rfl
    rw [hdata] at hc
    rcases List.mem_cons.1 hc with rfl | hc2
    · exact hexDigitChar_lower (by omega)
    · rcases List.mem_cons.1 hc2 with rfl | hc3
      · exact hexDigitChar_lower (by omega)
      · exact ih (fun x hx => h x (by simp [hx])) c hc3

theorem hexDecodePairs_encode (bytes : List Nat) (h : ∀ b ∈ bytes, b < 256) :
    hexDecodePairs (hexEncodeBytes bytes).data = .ok bytes := by
  induction bytes with
  | nil => rfl
  | cons b rest ih =>
    have hb : b < 256 := h b (by simp)
    have hdata : (hexEncodeBytes (b :: rest)).data =
        hexDigitChar (b / 16) :: hexDigitChar (b % 16) :: (hexEncodeBytes rest).data := rfl
    rw [hdata]
    have hrec := ih (fun x hx => h x (by simp [hx]))
    simp only [hexDecodePairs, hexCharVal_hexDigitChar (show b / 16 < 16 by omega),
      hexCharVal_hexDigitChar (show b % 16 < 16 by omega), hrec]
    have hbb : 16 * (b / 16) + b % 16 = b := by omega
    rw [hbb]

theorem hexDecodePairs_bad : ∀ (n : Nat) (cs : List Char), cs.length ≤ n →
    (∃ c ∈ cs, hexCharVal c = none) → ∃ e, hexDecodePairs cs = .error e := by
  intro n
  induction n with
  | zero =>
    intro cs hl hbad
    have hnil : cs = [] := List.eq_nil_of_length_eq_zero (by omega)
    subst hnil
    obtain ⟨c, hc, _⟩ := hbad
    simp at hc
  | succ n ih =>
    intro cs hl hbad
    rcases cs with _ | ⟨hi, rest1⟩
    · obtain ⟨c, hc, _⟩ := hbad
      simp at hc
    rcases rest1 with _ | ⟨lo, rest⟩
    · exact ⟨.oddLength, rfl⟩
    obtain ⟨c, hc, hbadc⟩ := hbad
    cases hhi : hexCharVal hi with
    | none => exact ⟨.invalidHexCharacter, by simp [hexDecodePairs, hhi]⟩
    | some h1 =>
      cases hlo : hexCharVal lo with
      | none => exact ⟨.invalidHexCharacter, by simp [hexDecodePairs, hhi, hlo]⟩
      | some h2 =>
        have hcrest : c ∈ rest := by
          rcases List.mem_cons.1 hc with rfl | hc2
          · rw [hbadc] at hhi; exact absurd hhi (by simp)
          · rcases List.mem_cons.1 hc2 with rfl | hc3
            · rw [hbadc] at hlo; exact absurd hlo (by simp)
            · exact hc3
        have hlen : rest.length ≤ n := by
          simp only [List.length_cons] at hl
          omega
        obtain ⟨e, he⟩ := ih rest hlen ⟨c, hcrest, hbadc⟩
        exact ⟨e, by simp [hexDecodePairs, hhi, hlo, he]⟩

/-- C6: a `Source::Url` serializes its 32-byte blake3 digest as exactly 64
lowercase hexadecimal characters; decoding that output restores the exact
bytes; and deserialization rejects a hex string of any other length (such
as 63 or 65 characters) or one containing a non-hex character. -/
theorem blake3_hex_roundtrip :
    (∀ (url : String) (bytes : List Nat), bytes.length = 32 → (∀ b ∈ bytes, b < 256) →
      serializeSource (.Url url bytes) =
        .obj [("Url", .obj [("url", .str url), ("blake3", .str (hexEncodeBytes bytes))])] ∧
      (hexEncodeBytes bytes).data.length = 64 ∧
      (∀ c ∈ (hexEncodeBytes bytes).data, isLowerHexC c = true) ∧
      hexDecode32 (hexEncodeBytes bytes) = .ok bytes) ∧
    (∀ s : String, s.data.length ≠ 64 → hexDecode32 s = .error .invalidStringLength) ∧
    (∀ s : String, (∃ c ∈ s.data, hexCharVal c = none) → ∃ e, hexDecode32 s = .error e) := by
  refine ⟨?_, ?_, ?_⟩
  · intro url bytes hlen hbound
    have henc : (hexEncodeBytes bytes).data.length = 64 := by
      rw [hexEncodeBytes_length, hlen]
    refine ⟨rfl, henc, hexEncodeBytes_lower bytes hbound, ?_⟩
    unfold hexDecode32
    rw [if_pos henc]
    exact hexDecodePairs_encode bytes hbound
  · intro s hlen
    unfold hexDecode32
    rw [if_neg hlen]
  · intro s hbad
    unfold hexDecode32
    by_cases hlen : s.data.length = 64
    · rw [if_pos hlen]
      exact hexDecodePairs_bad s.data.length s.data (Nat.le_refl _) hbad
    · exact ⟨.invalidStringLength, by rw [if_neg hlen]⟩

/-- Witness for C6: the round-trip at a concrete 32-byte digest. -/
theorem blake3_hex_roundtrip_witness :
    hexDecode32 (hexEncodeBytes (List.replicate 32 7)) = .ok (List.replicate 32 7) :=
  (blake3_hex_roundtrip.1 "https://example.org" (List.replicate 32 7)
    (by decide) (by decide)).2.2.2

/-- C7: serializing a `ManagedFile` whose `name` is `None` emits no
`"name"` key at all, and likewise for `description` on `ManagedFile` and
`Metadata`, `branch` on `Source::Git` and `Source::Slug`, and
`release_regex` on `Source::SlugReleases`. -/
theorem optional_fields_omitted :
    (∀ mf : ManagedFile, mf.name = none → "name" ∉ objKeys (serializeManagedFile mf)) ∧
    (∀ mf : ManagedFile, mf.description = none →
      "description" ∉ objKeys (serializeManagedFile mf)) ∧
    (∀ m : Metadata, m.description = none → "description" ∉ objKeys (serializeMetadata m)) ∧
    (∀ url, serializeSource (.Git url none) = .obj [("Git", .obj [("url", .str url)])]) ∧
    (∀ slug, serializeSource (.Slug slug none) = .obj [("Slug", .obj [("slug", .str slug)])]) ∧
    (∀ slug ar, serializeSource (.SlugReleases slug ar none) =
      .obj [("SlugReleases", .obj [("slug", .str slug), ("artifact_regex", .str ar)])]) := by
  refine ⟨?_, ?_, ?_, fun url => rfl, fun slug => rfl, fun slug ar => rfl⟩
  · intro mf h
    cases hd : mf.description <;>
      simp [serializeManagedFile, objKeys, optField, h, hd]
  · intro mf h
    cases hn : mf.name <;>
      simp [serializeManagedFile, objKeys, optField, h, hn]
  · intro m h
    simp [serializeMetadata, objKeys, optField, h]

/-- Witness for C7: a concrete `ManagedFile` with `name = None`. -/
theorem optional_fields_omitted_witness :
    "name" ∉ objKeys (serializeManagedFile
      ⟨none, none, "m.jar", false, "mods/m.jar", .Both, .Modrinth "m"⟩) :=
  optional_fields_omitted.1 _ rfl

/-- C8: for every `Pack`, the serialized `managed_files` field is the array
of the set's elements in iteration order; that order is strictly ascending
in the path field, hence it has at most one element per distinct path; and
any set built by inserting managed files into the empty `BTreeSet`
satisfies the same strict ordering invariant. -/
theorem managed_files_serialize_sorted (p : Pack) :
    objField (serializePack p) "managed_files" =
      some (.arr (p.managed_files.val.map serializeManagedFile)) ∧
    List.Pairwise (fun a b => cmpString a.path b.path = .lt) p.managed_files.val ∧
    List.Pairwise (fun a b => a.path ≠ b.path) p.managed_files.val ∧
    (∀ l : List ManagedFile, StrictSorted (btreeOfList l)) := by
  refine ⟨rfl, p.managed_files.property, ?_, ?_⟩
  · apply List.Pairwise.imp ?_ p.managed_files.property
    intro a b hab heq
    have : ManagedFile.cmp a b = .eq := by
      unfold ManagedFile.cmp cmpString
      rw [heq]
      exact cmpChars_self _
    rw [this] at hab
    exact absurd hab (by simp)
  · exact btreeOfList_sorted


end FFPack
